import Mathlib

/-!
Verification of the Tableau workbook parser (`parser.py`).

The development shallowly embeds the two functions of the source file,
`normalize_field_ref` and `parse_twb`, over a structured model of the XML
tree: every attribute / text read the Python code performs is a field of a
record, `None` becomes `Option.none`, Python truthiness of strings is
modelled explicitly, and Python `str.split` / `str.strip` / dict-with-
insertion-order are reimplemented on `List Char` / association lists so
that every definition is executable and provable by induction.
-/

set_option maxRecDepth 20000

/-! ## Python string primitives -/

/-- Character class for Python `strip('[]')`. -/
def isBr (c : Char) : Bool := c == '[' || c == ']'

/-- Character class for Python `strip('()')`. -/
def isParen (c : Char) : Bool := c == '(' || c == ')'

/-- Python `s.strip(chars)`: drop the characters satisfying `p` from both ends. -/
def stripChars (p : Char → Bool) (l : List Char) : List Char :=
  ((l.dropWhile p).reverse.dropWhile p).reverse

/-- Fuel-indexed worker for `splitSep` (structural recursion so the kernel can
evaluate it).  The separator is `s0 :: srest` (always non-empty). -/
def splitSepAux (s0 : Char) (srest : List Char) : Nat → List Char → List (List Char)
  | _, [] => [[]]
  | 0, l => [l]
  | fuel + 1, c :: rest =>
    if (s0 :: srest).isPrefixOf (c :: rest) then
      [] :: splitSepAux s0 srest fuel (rest.drop srest.length)
    else
      match splitSepAux s0 srest fuel rest with
      | [] => [[c]]
      | p :: ps => (c :: p) :: ps

/-- Python `s.split(sep)` for the non-empty separator `s0 :: srest`:
left-to-right, non-overlapping. -/
def splitSep (s0 : Char) (srest : List Char) (l : List Char) : List (List Char) :=
  splitSepAux s0 srest l.length l

/-- Python `sep.join(pieces)` on character lists. -/
def interL (sep : List Char) : List (List Char) → List Char
  | [] => []
  | [p] => p
  | p :: ps => p ++ sep ++ interL sep ps

/-- Python `needle in haystack` on character lists (substring occurrence). -/
def hasSub (n : List Char) : List Char → Bool
  | [] => n.isEmpty
  | c :: rest => n.isPrefixOf (c :: rest) || hasSub n rest

/-- Python string truthiness of an optional attribute: present and non-empty. -/
def truthy : Option String → Bool
  | none => false
  | some s => s != ""

/-- Python `a or b` on optional strings (empty string is falsy). -/
def pyOr (a b : Option String) : Option String := if truthy a then a else b

/-- Python `a or d` where `a` is an optional string and `d` a string default. -/
def strOr (a : Option String) (d : String) : String :=
  match a with
  | some s => if s != "" then s else d
  | none => d

/-- Python `s.strip('[]')` on strings. -/
def stripBrS (s : String) : String := String.mk (stripChars isBr s.data)

/-- Python `s.strip()` (whitespace at both ends). -/
def stripWsS (s : String) : String := String.mk (stripChars Char.isWhitespace s.data)

/-- Python `s.capitalize()`: first character upper-cased, the rest lower-cased. -/
def capitalizePy (s : String) : String :=
  match s.data with
  | [] => ""
  | c :: rest => String.mk (c.toUpper :: rest.map Char.toLower)

/-- Python `s.startswith(p)`. -/
def startsWithS (s p : String) : Bool := p.data.isPrefixOf s.data

/-- Python `s.endswith(p)`. -/
def endsWithS (s p : String) : Bool := p.data.isSuffixOf s.data

/-- Python `p in s` (substring containment). -/
def containsS (s p : String) : Bool := hasSub p.data s.data

/-- Lexicographic strict order on character lists, as Python compares strings. -/
def lexLt : List Char → List Char → Bool
  | [], [] => false
  | [], _ :: _ => true
  | _ :: _, [] => false
  | a :: xs, b :: ys => if a < b then true else if b < a then false else lexLt xs ys

/-- Insert a string into a lexicographically sorted list. -/
def insertSorted (x : String) : List String → List String
  | [] => [x]
  | y :: ys => if lexLt x.data y.data then x :: y :: ys else y :: insertSorted x ys

/-- Python `sorted(strings)` (insertion sort; ties are identical strings). -/
def sortStrs (l : List String) : List String := l.foldr insertSorted []

/-- Python `sep.join(strings)`. -/
def joinStr (sep : String) (l : List String) : String :=
  String.mk (interL sep.data (l.map String.data))

/-! ## Insertion-ordered dictionaries (Python `dict`) -/

/-- Python `d[k]` lookup (`None` when absent). -/
def alistGet {α : Type} (k : String) : List (String × α) → Option α
  | [] => none
  | p :: rest => if p.1 == k then some p.2 else alistGet k rest

/-- Python `d[k] = g(d.get(k))`: overwrite in place, or append a new binding
(insertion order preserved, as for Python dicts). -/
def updateAList {α : Type} (k : String) (g : Option α → α) :
    List (String × α) → List (String × α)
  | [] => [(k, g none)]
  | p :: rest => if p.1 == k then (p.1, g (some p.2)) :: rest else p :: updateAList k g rest

/-- Python `d[k] = v`. -/
def setAList {α : Type} (k : String) (v : α) (m : List (String × α)) : List (String × α) :=
  updateAList k (fun _ => v) m

/-- Mutate the entry at `k` if present (used for the field-record object that
the column pass mutates in place). -/
def modifyAList {α : Type} (k : String) (g : α → α) : List (String × α) → List (String × α)
  | [] => []
  | p :: rest => if p.1 == k then (p.1, g p.2) :: rest else p :: modifyAList k g rest

/-! ## The reference normalizer (`normalize_field_ref`, lines 4–31) -/

/-- Mirrors lines 20–27 of `parser.py`: if the bracket-stripped segment
contains `':'`, split it on `':'` and, when that yields at least two parts,
keep the part at index 1. -/
def processPart (clean_part : List Char) : List Char :=
  if clean_part.contains ':' then
    let sub_parts := splitSep ':' [] clean_part
    if 2 ≤ sub_parts.length then sub_parts.getD 1 [] else clean_part
  else clean_part

/-- Line 29: re-wrap a processed segment as `f"[{...}]"` (written with escapes
here: open bracket, content, close bracket). -/
def wrapBr (q : List Char) : List Char := '[' :: (q ++ [']'])

/-- The processed segments of a reference: split on `"].["`, strip `'[]'` from
each part, apply the derivation-tag rule (lines 13–27). -/
def procParts (field_ref : String) : List (List Char) :=
  (splitSep ']' ['.', '['] field_ref.data).map fun part => processPart (stripChars isBr part)

/-- Mirrors `normalize_field_ref` (lines 4–31): empty input is returned
unchanged; otherwise the processed segments are re-bracketed and joined
with `"."`. -/
def normalize_field_ref (field_ref : String) : String :=
  if field_ref = "" then field_ref
  else String.mk (interL ['.'] ((procParts field_ref).map wrapBr))

/-! ## Data model of the XML accesses performed by `parse_twb` -/

/-- One `<worksheet>` element: its `name` attribute, the text of the first
`.//rows` element, the text of the first `.//column` element, the `column`
attributes of its `.//filter` elements and the texts of its
`.//slices/column` elements. -/
structure Worksheet where
  name : Option String
  rowsText : Option String
  colsText : Option String
  filters : List (Option String)
  slices : List (Option String)
deriving DecidableEq

/-- One `metadata-record[@class='column']`: findtext of `local-name`,
`remote-name` and `local-type`. -/
structure MetadataRecord where
  localName : Option String
  remoteName : Option String
  localType : Option String
deriving DecidableEq

/-- One `<column>` element of a datasource: its attributes and, when a
`<calculation>` child exists, that child's optional `formula` attribute. -/
structure Column where
  nameAttr : Option String
  captionAttr : Option String
  roleAttr : Option String
  datatypeAttr : Option String
  calcChild : Option (Option String)
deriving DecidableEq

/-- One `<connection>` element: `class`, `server`, `dbname` attributes. -/
structure Connection where
  classAttr : Option String
  server : Option String
  dbname : Option String
deriving DecidableEq

/-- One element matching `.//*[@type='text']`: its tag and text. -/
structure TextNode where
  tag : String
  text : Option String
deriving DecidableEq

/-- One `<datasource>` element. -/
structure Datasource where
  captionAttr : Option String
  nameAttr : Option String
  columns : List Column
  metadataRecords : List MetadataRecord
  connections : List Connection
  textNodes : List TextNode
deriving DecidableEq

/-- The per-field dictionary built by `parse_twb` (lines 154–161 et seq.). -/
structure FieldRecord where
  tech_name : String
  name : String
  role : String
  datatype : String
  formula : String
  usage : String
deriving DecidableEq

/-- An entry of `ds_info["connections"]`. -/
structure ConnInfo where
  connClass : String
  server : Option String
  dbname : Option String
deriving DecidableEq

/-- The `ds_info` dictionary (lines 110–116). -/
structure DsInfo where
  name : String
  tech_name : Option String
  connections : List ConnInfo
  queries : List String
  fields : List FieldRecord
deriving DecidableEq

/-- The `data` dictionary (lines 43–48). -/
structure ParseData where
  datasources : List DsInfo
  worksheets : List String
  dashboards : List String
  parameters : List String
deriving DecidableEq

/-- The whole document, as the three `root.findall` scans see it. -/
structure TwbDoc where
  worksheets : List Worksheet
  dashboards : List (Option String)
  datasources : List Datasource
deriving DecidableEq

/-! ## Usage-map construction (lines 50–87) -/

/-- `usage_map` maps a normalized field reference to a dict from worksheet
name to the list of appended roles. -/
abbrev UsageMap := List (String × List (String × List String))

/-- Mirrors `usage_map.setdefault(norm_field, {}).setdefault(ws_name, []).append(role)`. -/
def registerUsage (field ws role : String) (m : UsageMap) : UsageMap :=
  updateAList field
    (fun inner => updateAList ws (fun roles => roles.getD [] ++ [role]) (inner.getD [])) m

/-- Mirrors lines 63–68 (and 70–75): split the shelf text on `"/"`, strip
`'()'`, skip empty tokens, normalize and register under `role`. -/
def shelfTextStep (role ws_name : String) (m : UsageMap) (t : String) : UsageMap :=
  (splitSep '/' [] t.data).foldl
    (fun m tok =>
      let field := stripChars isParen tok
      if field.isEmpty then m
      else registerUsage (normalize_field_ref (String.mk field)) ws_name role m) m

/-- Lines 63 and 70: the shelf element may be missing or have falsy text. -/
def shelfOptStep (role ws_name : String) (m : UsageMap) (t : Option String) : UsageMap :=
  match t with
  | some t => if t != "" then shelfTextStep role ws_name m t else m
  | none => m

/-- Mirrors lines 78–82: register each truthy filter `column` attribute. -/
def filtersStep (ws_name : String) (m : UsageMap) (fs : List (Option String)) : UsageMap :=
  fs.foldl
    (fun m c =>
      match c with
      | some col_name =>
        if col_name != "" then
          registerUsage (normalize_field_ref col_name) ws_name "Filter" m
        else m
      | none => m) m

/-- Mirrors lines 84–87: register each truthy `slices/column` text. -/
def slicesStep (ws_name : String) (m : UsageMap) (ss : List (Option String)) : UsageMap :=
  ss.foldl
    (fun m t =>
      match t with
      | some txt =>
        if txt != "" then
          registerUsage (normalize_field_ref txt) ws_name "Filter" m
        else m
      | none => m) m

/-- Mirrors one iteration of the worksheet loop (lines 53–87): skip unnamed
worksheets, record the name, then the rows shelf, the columns shelf, the
filters and the slices in source order. -/
def processWorksheet (acc : List String × UsageMap) (ws : Worksheet) :
    List String × UsageMap :=
  match ws.name with
  | none => acc
  | some ws_name =>
    if ws_name == "" then acc
    else
      (acc.1 ++ [ws_name],
        slicesStep ws_name
          (filtersStep ws_name
            (shelfOptStep "Column" ws_name
              (shelfOptStep "Row" ws_name acc.2 ws.rowsText) ws.colsText)
            ws.filters)
          ws.slices)

/-- The whole worksheet pass: worksheet-name list and usage map. -/
def buildPass1 (wss : List Worksheet) : List String × UsageMap :=
  wss.foldl processWorksheet ([], [])

/-! ## Field catalog and usage resolution (lines 146–220) -/

/-- Mirrors lines 150–161: one metadata record of class `column`. -/
def metadataStep (acc : List (String × FieldRecord)) (mr : MetadataRecord) :
    List (String × FieldRecord) :=
  match mr.localName with
  | none => acc
  | some local_name =>
    if local_name == "" then acc
    else
      setAList local_name
        { tech_name := local_name
          name := strOr mr.remoteName (stripBrS local_name)
          role := ""
          datatype := strOr mr.localType ""
          formula := ""
          usage := "" } acc

/-- Lines 182–183: a truthy caption overrides the display name. -/
def capStep (col : Column) (f : FieldRecord) : FieldRecord :=
  match col.captionAttr with
  | some cap => if cap != "" then { f with name := cap } else f
  | none => f

/-- Lines 186–187: a truthy `role` attribute overrides role, capitalized. -/
def roleStep (col : Column) (f : FieldRecord) : FieldRecord :=
  match col.roleAttr with
  | some r => if r != "" then { f with role := capitalizePy r } else f
  | none => f

/-- Lines 188–189: a truthy `datatype` attribute overrides datatype, capitalized. -/
def dtStep (col : Column) (f : FieldRecord) : FieldRecord :=
  match col.datatypeAttr with
  | some d => if d != "" then { f with datatype := capitalizePy d } else f
  | none => f

/-- Lines 192–195: a `<calculation>` child sets the formula (empty when its
`formula` attribute is absent) and forces role to `"Calculation"`. -/
def calcStep (col : Column) (f : FieldRecord) : FieldRecord :=
  match col.calcChild with
  | some formulaAttr => { f with formula := strOr formulaAttr "", role := "Calculation" }
  | none => f

/-- Mirrors lines 181–195: the in-place mutation of the field record found
(or just created) for the column, in source order: caption, role attribute,
datatype attribute, calculation child. -/
def enrichMutate (col : Column) (f : FieldRecord) : FieldRecord :=
  calcStep col (dtStep col (roleStep col (capStep col f)))

/-- Mirrors lines 164–195: one `<column>` definition enriching the catalog. -/
def enrichStep (acc : List (String × FieldRecord)) (col : Column) :
    List (String × FieldRecord) :=
  match col.nameAttr with
  | none => acc
  | some name_attr =>
    if name_attr == "" then acc
    else
      let acc :=
        if (alistGet name_attr acc).isNone then
          setAList name_attr
            { tech_name := name_attr
              name := strOr col.captionAttr (stripBrS name_attr)
              role := ""
              datatype := ""
              formula := ""
              usage := "" } acc
        else acc
      modifyAList name_attr (enrichMutate col) acc

/-- Python `set.update` modelled on a duplicate-free list (membership union). -/
def dedupUnion (s : List String) (roles : List String) : List String :=
  roles.foldl (fun s r => if s.contains r then s else s ++ [r]) s

/-- Mirrors lines 202–204: the candidate technical names checked in the map. -/
def candidateNames (dsTechName tech_name : String) : List String :=
  if dsTechName != "" && !(startsWithS tech_name ("[" ++ dsTechName ++ "]")) then
    [tech_name, "[" ++ dsTechName ++ "]." ++ tech_name]
  else [tech_name]

/-- Mirrors lines 206–210: union the role lists found under each candidate
into a per-worksheet role set. -/
def usageInfoFor (usage_map : UsageMap) (tns : List String) :
    List (String × List String) :=
  tns.foldl
    (fun ui tn =>
      match alistGet tn usage_map with
      | none => ui
      | some wsmap =>
        wsmap.foldl (fun ui p => updateAList p.1 (fun s => dedupUnion (s.getD []) p.2) ui) ui) []

/-- Mirrors lines 212–217: render the usage string. -/
def renderUsage (usage_info : List (String × List String)) : String :=
  let parts := usage_info.map fun p => p.1 ++ " (" ++ joinStr "/" (sortStrs p.2) ++ ")"
  if parts.isEmpty then "Not Used" else joinStr ", " parts

/-- Lines 200–217 for a single field record. -/
def finalizeField (usage_map : UsageMap) (dsTechName tech_name : String)
    (f : FieldRecord) : FieldRecord :=
  { f with usage := renderUsage (usageInfoFor usage_map (candidateNames dsTechName tech_name)) }

/-- Mirrors lines 129–144: the custom-SQL scan over `.//*[@type='text']`. -/
def queryStep (found : List String) (rel : TextNode) : List String :=
  if containsS rel.tag "ObjectModelEncapsulateLegacy" && !(containsS rel.tag ".true") then found
  else if endsWithS rel.tag "relation" || containsS rel.tag "relation" then
    match rel.text with
    | none => found
    | some sql =>
      if sql != "" && stripWsS sql != "" then
        let query_text := stripWsS sql
        if found.contains query_text then found else found ++ [query_text]
      else found
  else found

/-- Mirrors lines 101–104: one parameter column of the `Parameters` source. -/
def paramEntry (col : Column) : Option String :=
  match pyOr col.captionAttr col.nameAttr with
  | some p_name => if p_name != "" then some (stripBrS p_name) else none
  | none => none

/-- Mirrors one iteration of the datasource loop (lines 96–223). -/
def processDatasource (usage_map : UsageMap) (data : ParseData) (ds : Datasource) :
    ParseData :=
  let caption := pyOr ds.captionAttr ds.nameAttr
  if caption == some "Parameters" ||
      (truthy ds.nameAttr && startsWithS (ds.nameAttr.getD "") "Parameters") then
    { data with parameters := data.parameters ++ ds.columns.filterMap paramEntry }
  else
    match caption with
    | none => data
    | some c =>
      if c == "" then data
      else
        let connections := ds.connections.filterMap fun conn =>
          match conn.classAttr with
          | some conn_class =>
            if conn_class != "" && conn_class != "federated" then
              some { connClass := conn_class, server := conn.server, dbname := conn.dbname }
            else none
          | none => none
        let queries := ds.textNodes.foldl queryStep []
        let fields_by_tech := ds.columns.foldl enrichStep (ds.metadataRecords.foldl metadataStep [])
        let dsTechName := strOr ds.nameAttr ""
        let fields := fields_by_tech.map fun p => finalizeField usage_map dsTechName p.1 p.2
        let ds_info : DsInfo :=
          { name := c, tech_name := ds.nameAttr, connections := connections,
            queries := queries, fields := fields }
        if !connections.isEmpty || !queries.isEmpty || !fields.isEmpty then
          { data with datasources := data.datasources ++ [ds_info] }
        else data

/-- Mirrors `parse_twb` (lines 34–228): a document that fails to load raises
inside `ET.parse`, is caught by the `except` clause and yields `None`;
otherwise the three passes run over the tree. -/
def parse_twb (input : Except String TwbDoc) : Option ParseData :=
  match input with
  | Except.error _ => none
  | Except.ok root =>
    let pass1 := buildPass1 root.worksheets
    let dashboards := root.dashboards.filterMap fun n =>
      match n with
      | some s => if s != "" then some s else none
      | none => none
    some (root.datasources.foldl (processDatasource pass1.2)
      { datasources := [], worksheets := pass1.1, dashboards := dashboards, parameters := [] })

/-! ## Observation helpers and proof-support definitions -/

/-- The role list recorded in the usage map for a `(field, worksheet)` pair. -/
def rolesFor (field ws : String) (m : UsageMap) : List String :=
  (alistGet ws ((alistGet field m).getD [])).getD []

/-- Whether `role` has been registered for `(field, ws)` in the usage map. -/
def hasRole (field ws role : String) (m : UsageMap) : Bool :=
  (rolesFor field ws m).contains role

/-- The inner pieces of the re-joined normalized string when it is split again
on the `"].["` delimiter: all pieces except the first. -/
def midPieces : List (List Char) → List (List Char)
  | [] => []
  | [q] => [q ++ [']']]
  | q :: qs => q :: midPieces qs

/-- All pieces of the re-joined normalized string when split again on `"].["`:
the first piece keeps its leading bracket, the last its trailing bracket. -/
def edgePieces : List (List Char) → List (List Char)
  | [] => []
  | [q] => ['[' :: (q ++ [']'])]
  | q :: qs => ('[' :: q) :: midPieces qs

/-! ## Lemmas about the splitting primitive -/

theorem splitSepAux_nil (s0 : Char) (srest : List Char) (f : Nat) :
    splitSepAux s0 srest f [] = [[]] := by
  cases f <;> rfl

theorem splitSepAux_succ_cons (s0 : Char) (srest : List Char) (f : Nat) (c : Char)
    (rest : List Char) :
    splitSepAux s0 srest (f + 1) (c :: rest) =
      if (s0 :: srest).isPrefixOf (c :: rest) then
        [] :: splitSepAux s0 srest f (rest.drop srest.length)
      else
        match splitSepAux s0 srest f rest with
        | [] => [[c]]
        | p :: ps => (c :: p) :: ps := rfl

theorem splitSepAux_congr (s0 : Char) (srest : List Char) :
    ∀ (f1 f2 : Nat) (l : List Char), l.length ≤ f1 → l.length ≤ f2 →
      splitSepAux s0 srest f1 l = splitSepAux s0 srest f2 l := by
  intro f1
  induction f1 with
  | zero =>
    intro f2 l h1 _
    have hl : l = [] := List.eq_nil_of_length_eq_zero (Nat.le_zero.mp h1)
    subst hl
    rw [splitSepAux_nil, splitSepAux_nil]
  | succ f ih =>
    intro f2 l h1 h2
    cases l with
    | nil => rw [splitSepAux_nil, splitSepAux_nil]
    | cons c rest =>
      cases f2 with
      | zero => simp at h2
      | succ g =>
        rw [splitSepAux_succ_cons, splitSepAux_succ_cons]
        have hrest1 : rest.length ≤ f := by simpa using h1
        have hrest2 : rest.length ≤ g := by simpa using h2
        have hdrop : (rest.drop srest.length).length ≤ rest.length := by
          simp [List.length_drop]
        by_cases hp : (s0 :: srest).isPrefixOf (c :: rest) = true
        · simp only [hp, if_true]
          rw [ih g (rest.drop srest.length) (le_trans hdrop hrest1) (le_trans hdrop hrest2)]
        · simp only [Bool.not_eq_true] at hp
          simp only [hp, Bool.false_eq_true, if_false]
          rw [ih g rest hrest1 hrest2]

theorem splitSep_nil (s0 : Char) (srest : List Char) : splitSep s0 srest [] = [[]] := rfl

theorem splitSep_cons (s0 : Char) (srest : List Char) (c : Char) (rest : List Char) :
    splitSep s0 srest (c :: rest) =
      if (s0 :: srest).isPrefixOf (c :: rest) then
        [] :: splitSep s0 srest (rest.drop srest.length)
      else
        match splitSep s0 srest rest with
        | [] => [[c]]
        | p :: ps => (c :: p) :: ps := by
  show splitSepAux s0 srest (rest.length + 1) (c :: rest) = _
  rw [splitSepAux_succ_cons]
  by_cases hp : (s0 :: srest).isPrefixOf (c :: rest) = true
  · simp only [hp, if_true]
    rw [splitSepAux_congr s0 srest rest.length (rest.drop srest.length).length
      (rest.drop srest.length) (by simp [List.length_drop]) (le_refl _)]
    rfl
  · simp only [Bool.not_eq_true] at hp
    simp only [hp, Bool.false_eq_true, if_false]
    rfl

theorem splitSepAux_ne_nil (s0 : Char) (srest : List Char) :
    ∀ (f : Nat) (l : List Char), splitSepAux s0 srest f l ≠ [] := by
  intro f
  induction f with
  | zero => intro l; cases l <;> simp [splitSepAux_nil, splitSepAux]
  | succ f ih =>
    intro l
    cases l with
    | nil => simp [splitSepAux_nil]
    | cons c rest =>
      rw [splitSepAux_succ_cons]
      split
      · simp
      · split <;> simp

theorem splitSep_ne_nil (s0 : Char) (srest : List Char) (l : List Char) :
    splitSep s0 srest l ≠ [] :=
  splitSepAux_ne_nil s0 srest l.length l

/-! ## Substring occurrence facts -/

theorem isPrefixOf_eq_true_iff (n : List Char) :
    ∀ l : List Char, n.isPrefixOf l = true ↔ ∃ t, l = n ++ t := by
  induction n with
  | nil =>
    intro l
    constructor
    · intro _; exact ⟨l, rfl⟩
    · intro _; cases l <;> rfl
  | cons a xs ih =>
    intro l
    cases l with
    | nil =>
      simp only [List.isPrefixOf]
      constructor
      · intro h; cases h
      · rintro ⟨t, ht⟩; simp at ht
    | cons b bs =>
      simp only [List.isPrefixOf, Bool.and_eq_true, beq_iff_eq, ih bs]
      constructor
      · rintro ⟨hab, t, ht⟩
        exact ⟨t, by rw [List.cons_append, ← hab, ht]⟩
      · rintro ⟨t, ht⟩
        rw [List.cons_append] at ht
        rcases List.cons.inj ht with ⟨h1, h2⟩
        exact ⟨h1.symm, t, h2⟩

theorem hasSub_eq_true_iff (n : List Char) :
    ∀ l : List Char, hasSub n l = true ↔ ∃ s t, l = s ++ (n ++ t) := by
  intro l
  induction l with
  | nil =>
    simp only [hasSub, List.isEmpty_iff]
    constructor
    · intro h; exact ⟨[], [], by simp [h]⟩
    · rintro ⟨s, t, ht⟩
      rcases List.append_eq_nil.mp ht.symm with ⟨_, h2⟩
      exact (List.append_eq_nil.mp h2).1
  | cons c rest ih =>
    simp only [hasSub, Bool.or_eq_true, ih, isPrefixOf_eq_true_iff]
    constructor
    · rintro (⟨t, ht⟩ | ⟨s, t, ht⟩)
      · exact ⟨[], t, by simpa using ht⟩
      · exact ⟨c :: s, t, by simp [ht]⟩
    · rintro ⟨s, t, ht⟩
      cases s with
      | nil => exact Or.inl ⟨t, by simpa using ht⟩
      | cons x s2 =>
        rw [List.cons_append] at ht
        rcases List.cons.inj ht with ⟨_, h2⟩
        exact Or.inr ⟨s2, t, h2⟩

theorem hasSub_cons_false {n : List Char} {c : Char} {rest : List Char}
    (h : hasSub n (c :: rest) = false) : hasSub n rest = false := by
  have : hasSub n (c :: rest) = (n.isPrefixOf (c :: rest) || hasSub n rest) := rfl
  rw [this, Bool.or_eq_false_iff] at h
  exact h.2

theorem hasSub_false_of_inSub {n m l : List Char} (hml : ∃ s t, l = s ++ (m ++ t))
    (h : hasSub n l = false) : hasSub n m = false := by
  cases hb : hasSub n m with
  | false => rfl
  | true =>
    exfalso
    obtain ⟨s, t, hst⟩ := (hasSub_eq_true_iff n m).mp hb
    obtain ⟨s2, t2, hl⟩ := hml
    have : hasSub n l = true := (hasSub_eq_true_iff n l).mpr
      ⟨s2 ++ s, t ++ t2, by rw [hl, hst]; simp [List.append_assoc]⟩
    rw [this] at h
    cases h

theorem not_mem_of_contains_false {l : List Char} {a : Char}
    (h : l.contains a = false) : a ∉ l := by
  intro hm
  have : l.contains a = true := by simpa using hm
  rw [this] at h
  cases h

theorem hasSub_singleton_of_mem {l : List Char} {a : Char} (h : a ∈ l) :
    hasSub [a] l = true := by
  obtain ⟨s, t, hst⟩ := List.append_of_mem h
  exact (hasSub_eq_true_iff [a] l).mpr ⟨s, t, by simpa using hst⟩

theorem splitSepAux_head_pre (s0 : Char) (srest : List Char) :
    ∀ (f : Nat) (l p : List Char) (ps : List (List Char)), l.length ≤ f →
      splitSepAux s0 srest f l = p :: ps → ∃ t, l = p ++ t := by
  intro f
  induction f with
  | zero =>
    intro l p ps hl h
    have : l = [] := List.eq_nil_of_length_eq_zero (Nat.le_zero.mp hl)
    subst this
    rw [splitSepAux_nil] at h
    rcases List.cons.inj h with ⟨h1, _⟩
    exact ⟨[], by rw [← h1]; rfl⟩
  | succ f ih =>
    intro l p ps hl h
    cases l with
    | nil =>
      rw [splitSepAux_nil] at h
      rcases List.cons.inj h with ⟨h1, _⟩
      exact ⟨[], by rw [← h1]; rfl⟩
    | cons c rest =>
      have hrest : rest.length ≤ f := by simpa using hl
      rw [splitSepAux_succ_cons] at h
      by_cases hp : (s0 :: srest).isPrefixOf (c :: rest) = true
      · simp only [hp, if_true] at h
        rcases List.cons.inj h with ⟨h1, _⟩
        exact ⟨c :: rest, by rw [← h1]; rfl⟩
      · simp only [Bool.not_eq_true] at hp
        simp only [hp, Bool.false_eq_true, if_false] at h
        cases haux : splitSepAux s0 srest f rest with
        | nil => exact absurd haux (splitSepAux_ne_nil s0 srest f rest)
        | cons p0 ps0 =>
          rw [haux] at h
          rcases List.cons.inj h with ⟨h1, _⟩
          obtain ⟨t, ht⟩ := ih rest p0 ps0 hrest haux
          exact ⟨t, by rw [← h1, List.cons_append, ht]⟩

theorem splitSepAux_pieces (s0 : Char) (srest : List Char) :
    ∀ (f : Nat) (l : List Char), l.length ≤ f → ∀ p ∈ splitSepAux s0 srest f l,
      (∃ s t, l = s ++ (p ++ t)) ∧ hasSub (s0 :: srest) p = false := by
  intro f
  induction f with
  | zero =>
    intro l hl p hp
    have : l = [] := List.eq_nil_of_length_eq_zero (Nat.le_zero.mp hl)
    subst this
    rw [splitSepAux_nil] at hp
    rcases List.mem_singleton.mp hp with rfl
    exact ⟨⟨[], [], rfl⟩, rfl⟩
  | succ f ih =>
    intro l hl p hp
    cases l with
    | nil =>
      rw [splitSepAux_nil] at hp
      rcases List.mem_singleton.mp hp with rfl
      exact ⟨⟨[], [], rfl⟩, rfl⟩
    | cons c rest =>
      have hrest : rest.length ≤ f := by simpa using hl
      rw [splitSepAux_succ_cons] at hp
      by_cases hpre : (s0 :: srest).isPrefixOf (c :: rest) = true
      · simp only [hpre, if_true] at hp
        rcases List.mem_cons.mp hp with rfl | hp2
        · exact ⟨⟨[], c :: rest, rfl⟩, rfl⟩
        · have hdl : (rest.drop srest.length).length ≤ f := by
            calc (rest.drop srest.length).length ≤ rest.length := by simp [List.length_drop]
            _ ≤ f := hrest
          obtain ⟨⟨s, t, hst⟩, hns⟩ := ih (rest.drop srest.length) hdl p hp2
          refine ⟨⟨c :: (rest.take srest.length ++ s), t, ?_⟩, hns⟩
          conv_lhs => rw [← List.take_append_drop srest.length rest]
          rw [hst]
          simp [List.append_assoc]
      · simp only [Bool.not_eq_true] at hpre
        simp only [hpre, Bool.false_eq_true, if_false] at hp
        cases haux : splitSepAux s0 srest f rest with
        | nil => exact absurd haux (splitSepAux_ne_nil s0 srest f rest)
        | cons p0 ps0 =>
          rw [haux] at hp
          rcases List.mem_cons.mp hp with rfl | hp2
          · obtain ⟨_, hns0⟩ := ih rest hrest p0 (haux ▸ List.mem_cons_self p0 ps0)
            obtain ⟨t0, ht0⟩ := splitSepAux_head_pre s0 srest f rest p0 ps0 hrest haux
            refine ⟨⟨[], t0, by simp [ht0]⟩, ?_⟩
            have hrw : hasSub (s0 :: srest) (c :: p0) =
                ((s0 :: srest).isPrefixOf (c :: p0) || hasSub (s0 :: srest) p0) := rfl
            rw [hrw, hns0, Bool.or_false]
            cases hb : (s0 :: srest).isPrefixOf (c :: p0) with
            | false => rfl
            | true =>
              exfalso
              obtain ⟨t, ht⟩ := (isPrefixOf_eq_true_iff (s0 :: srest) (c :: p0)).mp hb
              have : c :: rest = (s0 :: srest) ++ (t ++ t0) := by
                rw [← List.append_assoc, ← ht, List.cons_append, ← ht0]
              have : (s0 :: srest).isPrefixOf (c :: rest) = true :=
                (isPrefixOf_eq_true_iff (s0 :: srest) (c :: rest)).mpr ⟨t ++ t0, this⟩
              rw [this] at hpre
              cases hpre
          · obtain ⟨⟨s, t, hst⟩, hns⟩ := ih rest hrest p (haux ▸ List.mem_cons_of_mem p0 hp2)
            exact ⟨⟨c :: s, t, by rw [List.cons_append, ← hst]⟩, hns⟩

theorem splitSep_pieces (s0 : Char) (srest : List Char) (l : List Char) :
    ∀ p ∈ splitSep s0 srest l,
      (∃ s t, l = s ++ (p ++ t)) ∧ hasSub (s0 :: srest) p = false :=
  splitSepAux_pieces s0 srest l.length l (le_refl _)

theorem splitSep_of_noSub (s0 : Char) (srest : List Char) :
    ∀ l : List Char, hasSub (s0 :: srest) l = false → splitSep s0 srest l = [l] := by
  intro l
  induction l with
  | nil => intro _; rfl
  | cons c rest ih =>
    intro h
    rw [splitSep_cons]
    have hpre : (s0 :: srest).isPrefixOf (c :: rest) = false := by
      cases hb : (s0 :: srest).isPrefixOf (c :: rest) with
      | false => rfl
      | true =>
        exfalso
        obtain ⟨t, ht⟩ := (isPrefixOf_eq_true_iff (s0 :: srest) (c :: rest)).mp hb
        have : hasSub (s0 :: srest) (c :: rest) = true :=
          (hasSub_eq_true_iff (s0 :: srest) (c :: rest)).mpr ⟨[], t, by simpa using ht⟩
        rw [this] at h
        cases h
    simp only [hpre, Bool.false_eq_true, if_false]
    rw [ih (hasSub_cons_false h)]

theorem splitSep_append_sep (q r : List Char) (h : hasSub [']', '.', '['] q = false) :
    splitSep ']' ['.', '['] (q ++ (']' :: '.' :: '[' :: r)) =
      q :: splitSep ']' ['.', '['] r := by
  induction q with
  | nil =>
    simp only [List.nil_append]
    rw [splitSep_cons]
    have hpre : [']', '.', '['].isPrefixOf (']' :: '.' :: '[' :: r) = true :=
      (isPrefixOf_eq_true_iff [']', '.', '['] (']' :: '.' :: '[' :: r)).mpr ⟨r, rfl⟩
    simp only [hpre, if_true]
    rfl
  | cons c q2 ih =>
    have h2 : hasSub [']', '.', '['] q2 = false := hasSub_cons_false h
    simp only [List.cons_append]
    rw [splitSep_cons]
    have hpre : [']', '.', '['].isPrefixOf (c :: (q2 ++ (']' :: '.' :: '[' :: r))) = false := by
      cases hb : [']', '.', '['].isPrefixOf (c :: (q2 ++ (']' :: '.' :: '[' :: r))) with
      | false => rfl
      | true =>
        exfalso
        obtain ⟨t, ht⟩ :=
          (isPrefixOf_eq_true_iff [']', '.', '['] (c :: (q2 ++ (']' :: '.' :: '[' :: r)))).mp hb
        rcases q2 with _ | ⟨d, q3⟩
        · simp only [List.nil_append, List.cons_append, List.cons.injEq] at ht
          exact absurd ht.2.1 (by decide)
        · rcases q3 with _ | ⟨e, q4⟩
          · simp only [List.cons_append, List.nil_append, List.cons.injEq] at ht
            exact absurd ht.2.2.1 (by decide)
          · simp only [List.cons_append, List.cons.injEq] at ht
            have hq : hasSub [']', '.', '['] (c :: d :: e :: q4) = true := by
              apply (hasSub_eq_true_iff [']', '.', '['] (c :: d :: e :: q4)).mpr
              exact ⟨[], q4, by simp [ht.1, ht.2.1, ht.2.2.1]⟩
            rw [hq] at h
            cases h
    simp only [hpre, Bool.false_eq_true, if_false]
    rw [ih h2]

theorem splitSep_single_length (a : Char) :
    ∀ l : List Char, a ∈ l → 2 ≤ (splitSep a [] l).length := by
  intro l
  induction l with
  | nil => intro h; cases h
  | cons c rest ih =>
    intro h
    rw [splitSep_cons]
    by_cases hc : [a].isPrefixOf (c :: rest) = true
    · simp only [hc, if_true]
      have := splitSep_ne_nil a [] (rest.drop ([] : List Char).length)
      have hpos : 1 ≤ (splitSep a [] (rest.drop ([] : List Char).length)).length :=
        Nat.one_le_iff_ne_zero.mpr (fun hz => this (List.eq_nil_of_length_eq_zero hz))
      simpa using hpos
    · have hac : ¬ a = c := by
        intro hEq
        exact hc ((isPrefixOf_eq_true_iff [a] (c :: rest)).mpr ⟨rest, by rw [hEq]; rfl⟩)
      have hmem : a ∈ rest := by
        rcases List.mem_cons.mp h with h1 | h1
        · exact absurd h1 hac
        · exact h1
      simp only [Bool.not_eq_true] at hc
      simp only [hc, Bool.false_eq_true, if_false]
      cases haux : splitSep a [] rest with
      | nil => exact absurd haux (splitSep_ne_nil a [] rest)
      | cons p ps =>
        have := ih hmem
        rw [haux] at this
        simpa using this

theorem processPart_no_colon (l : List Char) : ':' ∉ processPart l := by
  unfold processPart
  by_cases hc : l.contains ':' = true
  · simp only [hc, if_true]
    have hmem : ':' ∈ l := by simpa using hc
    have hlen : 2 ≤ (splitSep ':' [] l).length := splitSep_single_length ':' l hmem
    simp only [hlen, if_true]
    have hlt : 1 < (splitSep ':' [] l).length := hlen
    have hget : (splitSep ':' [] l).getD 1 [] ∈ splitSep ':' [] l := by
      rw [List.getD_eq_getElem?_getD, List.getElem?_eq_getElem hlt]
      exact List.getElem_mem _
    have hns := (splitSep_pieces ':' [] l _ hget).2
    intro habs
    have : hasSub [':'] ((splitSep ':' [] l).getD 1 []) = true := hasSub_singleton_of_mem habs
    rw [this] at hns
    cases hns
  · simp only [Bool.not_eq_true] at hc
    simp only [hc, Bool.false_eq_true, if_false]
    exact not_mem_of_contains_false hc

theorem processPart_self {l : List Char} (h : ':' ∉ l) : processPart l = l := by
  unfold processPart
  have hc : l.contains ':' = false := by
    cases hb : l.contains ':' with
    | false => rfl
    | true => exact absurd (by simpa using hb) h
  simp only [hc, Bool.false_eq_true, if_false]

theorem processPart_noSub {l : List Char} (h : hasSub [']', '.', '['] l = false) :
    hasSub [']', '.', '['] (processPart l) = false := by
  unfold processPart
  by_cases hc : l.contains ':' = true
  · simp only [hc, if_true]
    by_cases hlen : 2 ≤ (splitSep ':' [] l).length
    · simp only [hlen, if_true]
      have hget : (splitSep ':' [] l).getD 1 [] ∈ splitSep ':' [] l := by
        rw [List.getD_eq_getElem?_getD, List.getElem?_eq_getElem hlen]
        exact List.getElem_mem _
      exact hasSub_false_of_inSub (splitSep_pieces ':' [] l _ hget).1 h
    · simp only [hlen, if_false]
      exact h
  · simp only [Bool.not_eq_true] at hc
    simp only [hc, Bool.false_eq_true, if_false]
    exact h

/-! ## Lemmas about `stripChars` -/

theorem stripChars_cons_of (p : Char → Bool) (c : Char) (l : List Char) (h : p c = true) :
    stripChars p (c :: l) = stripChars p l := by
  unfold stripChars
  rw [List.dropWhile_cons, h]
  simp

theorem stripChars_append_of (p : Char → Bool) (c : Char) (l : List Char) (h : p c = true) :
    stripChars p (l ++ [c]) = stripChars p l := by
  unfold stripChars
  rw [List.dropWhile_append]
  cases hd : l.dropWhile p with
  | nil =>
    simp only [List.isEmpty_nil, if_true]
    simp [List.dropWhile_cons, h]
  | cons d ds =>
    simp only [List.isEmpty_cons, Bool.false_eq_true, if_false]
    rw [List.reverse_append]
    simp only [List.reverse_cons, List.reverse_nil, List.nil_append, List.singleton_append]
    rw [List.dropWhile_cons, h]
    simp

theorem stripChars_inSub (p : Char → Bool) (l : List Char) :
    ∃ s t, l = s ++ (stripChars p l ++ t) := by
  refine ⟨l.takeWhile p, ((l.dropWhile p).reverse.takeWhile p).reverse, ?_⟩
  conv_lhs => rw [← List.takeWhile_append_dropWhile p l]
  congr 1
  unfold stripChars
  conv_lhs => rw [← List.reverse_reverse (l.dropWhile p),
    ← List.takeWhile_append_dropWhile p (l.dropWhile p).reverse]
  rw [List.reverse_append]

theorem hasSub_stripChars_false (p : Char → Bool) {n l : List Char}
    (h : hasSub n l = false) : hasSub n (stripChars p l) = false :=
  hasSub_false_of_inSub (stripChars_inSub p l) h

/-! ## Substring-freedom of decorated pieces -/

theorem noSub_cons_lb {q : List Char} (h : hasSub [']', '.', '['] q = false) :
    hasSub [']', '.', '['] ('[' :: q) = false := by
  have hrw : hasSub [']', '.', '['] ('[' :: q) =
      ([']', '.', '['].isPrefixOf ('[' :: q) || hasSub [']', '.', '['] q) := rfl
  rw [hrw, h, Bool.or_false]
  cases hb : [']', '.', '['].isPrefixOf ('[' :: q) with
  | false => rfl
  | true =>
    exfalso
    obtain ⟨t, ht⟩ := (isPrefixOf_eq_true_iff [']', '.', '['] ('[' :: q)).mp hb
    simp only [List.cons_append, List.cons.injEq] at ht
    exact absurd ht.1 (by decide)

theorem noSub_append_rb {q : List Char} (h : hasSub [']', '.', '['] q = false) :
    hasSub [']', '.', '['] (q ++ [']']) = false := by
  cases hb : hasSub [']', '.', '['] (q ++ [']']) with
  | false => rfl
  | true =>
    exfalso
    obtain ⟨s, t, hst⟩ := (hasSub_eq_true_iff [']', '.', '['] (q ++ [']'])).mp hb
    rcases List.eq_nil_or_concat t with rfl | ⟨t2, x, rfl⟩
    · have hst2 : q ++ [']'] = (s ++ [']', '.']) ++ ['['] := by
        rw [hst]; simp
      have h12 := (List.append_inj' hst2 rfl).2
      simp only [List.cons.injEq, and_true] at h12
      exact absurd h12 (by decide)
    · have hst2 : q ++ [']'] = (s ++ ([']', '.', '['] ++ t2)) ++ [x] := by
        rw [hst]; simp
      have hq : q = s ++ ([']', '.', '['] ++ t2) := (List.append_inj' hst2 rfl).1
      have : hasSub [']', '.', '['] q = true :=
        (hasSub_eq_true_iff [']', '.', '['] q).mpr ⟨s, t2, hq⟩
      rw [this] at h
      cases h

/-! ## Lemmas about `interL`, `midPieces` and `edgePieces` -/

theorem interL_one (sep : List Char) (p : List Char) : interL sep [p] = p := rfl

theorem interL_two (sep : List Char) (p q : List Char) (t : List (List Char)) :
    interL sep (p :: q :: t) = p ++ sep ++ interL sep (q :: t) := rfl

theorem interL_map_wrap :
    ∀ qs : List (List Char), qs ≠ [] →
      interL ['.'] (qs.map wrapBr) = '[' :: (interL [']', '.', '['] qs ++ [']']) := by
  intro qs
  induction qs with
  | nil => intro h; cases h rfl
  | cons q qs2 ih =>
    intro _
    cases qs2 with
    | nil => simp [interL_one, wrapBr]
    | cons q2 t =>
      show wrapBr q ++ ['.'] ++ interL ['.'] ((q2 :: t).map wrapBr) = _
      rw [ih (by simp), interL_two]
      simp [wrapBr, List.append_assoc]

theorem splitSep_midPieces :
    ∀ qs : List (List Char), qs ≠ [] → (∀ q ∈ qs, hasSub [']', '.', '['] q = false) →
      splitSep ']' ['.', '['] (interL [']', '.', '['] qs ++ [']']) = midPieces qs := by
  intro qs
  induction qs with
  | nil => intro h; cases h rfl
  | cons q qs2 ih =>
    intro _ h
    cases qs2 with
    | nil =>
      rw [interL_one]
      rw [splitSep_of_noSub ']' ['.', '[']
        (q ++ [']']) (noSub_append_rb (h q (List.mem_cons_self q [])))]
      rfl
    | cons q2 t =>
      rw [interL_two]
      have hre : (q ++ [']', '.', '['] ++ interL [']', '.', '['] (q2 :: t)) ++ [']'] =
          q ++ (']' :: '.' :: '[' :: (interL [']', '.', '['] (q2 :: t) ++ [']'])) := by
        simp [List.append_assoc]
      rw [hre, splitSep_append_sep q _ (h q (List.mem_cons_self q (q2 :: t))),
        ih (by simp) (fun x hx => h x (List.mem_cons_of_mem q hx))]
      rfl

theorem splitSep_edgePieces :
    ∀ qs : List (List Char), qs ≠ [] → (∀ q ∈ qs, hasSub [']', '.', '['] q = false) →
      splitSep ']' ['.', '['] ('[' :: (interL [']', '.', '['] qs ++ [']'])) = edgePieces qs := by
  intro qs
  cases qs with
  | nil => intro h; cases h rfl
  | cons q qs2 =>
    intro _ h
    cases qs2 with
    | nil =>
      rw [interL_one]
      have hns : hasSub [']', '.', '['] ('[' :: (q ++ [']'])) = false :=
        noSub_cons_lb (noSub_append_rb (h q (List.mem_cons_self q [])))
      rw [splitSep_of_noSub ']' ['.', '['] ('[' :: (q ++ [']'])) hns]
      rfl
    | cons q2 t =>
      rw [interL_two]
      have hre : '[' :: ((q ++ [']', '.', '['] ++ interL [']', '.', '['] (q2 :: t)) ++ [']']) =
          ('[' :: q) ++ (']' :: '.' :: '[' :: (interL [']', '.', '['] (q2 :: t) ++ [']'])) := by
        simp [List.append_assoc]
      rw [hre, splitSep_append_sep ('[' :: q) _
        (noSub_cons_lb (h q (List.mem_cons_self q (q2 :: t)))),
        splitSep_midPieces (q2 :: t) (by simp) (fun x hx => h x (List.mem_cons_of_mem q hx))]
      rfl

theorem strip_process_midPieces :
    ∀ qs : List (List Char), (∀ q ∈ qs, stripChars isBr q = q) → (∀ q ∈ qs, ':' ∉ q) →
      (midPieces qs).map (fun piece => processPart (stripChars isBr piece)) = qs := by
  intro qs
  induction qs with
  | nil => intro _ _; rfl
  | cons q qs2 ih =>
    intro h1 h2
    cases qs2 with
    | nil =>
      show [processPart (stripChars isBr (q ++ [']']))] = [q]
      rw [stripChars_append_of isBr ']' q (by decide), h1 q (List.mem_cons_self q []),
        processPart_self (h2 q (List.mem_cons_self q []))]
    | cons q2 t =>
      show processPart (stripChars isBr q) ::
        (midPieces (q2 :: t)).map (fun piece => processPart (stripChars isBr piece)) = _
      rw [h1 q (List.mem_cons_self q (q2 :: t)),
        processPart_self (h2 q (List.mem_cons_self q (q2 :: t))),
        ih (fun x hx => h1 x (List.mem_cons_of_mem q hx))
           (fun x hx => h2 x (List.mem_cons_of_mem q hx))]

theorem strip_process_edgePieces :
    ∀ qs : List (List Char), (∀ q ∈ qs, stripChars isBr q = q) → (∀ q ∈ qs, ':' ∉ q) →
      (edgePieces qs).map (fun piece => processPart (stripChars isBr piece)) = qs := by
  intro qs
  cases qs with
  | nil => intro _ _; rfl
  | cons q qs2 =>
    intro h1 h2
    cases qs2 with
    | nil =>
      show [processPart (stripChars isBr ('[' :: (q ++ [']'])))] = [q]
      rw [stripChars_cons_of isBr '[' _ (by decide),
        stripChars_append_of isBr ']' q (by decide), h1 q (List.mem_cons_self q []),
        processPart_self (h2 q (List.mem_cons_self q []))]
    | cons q2 t =>
      show processPart (stripChars isBr ('[' :: q)) ::
        (midPieces (q2 :: t)).map (fun piece => processPart (stripChars isBr piece)) = _
      rw [stripChars_cons_of isBr '[' q (by decide), h1 q (List.mem_cons_self q (q2 :: t)),
        processPart_self (h2 q (List.mem_cons_self q (q2 :: t))),
        strip_process_midPieces (q2 :: t) (fun x hx => h1 x (List.mem_cons_of_mem q hx))
          (fun x hx => h2 x (List.mem_cons_of_mem q hx))]

/-! ## Facts about `procParts` and `normalize_field_ref` -/

theorem procParts_ne_nil (x : String) : procParts x ≠ [] := by
  unfold procParts
  intro h
  exact splitSep_ne_nil ']' ['.', '['] x.data (List.map_eq_nil_iff.mp h)

theorem procParts_no_colon (x : String) : ∀ q ∈ procParts x, ':' ∉ q := by
  intro q hq
  simp only [procParts, List.mem_map] at hq
  obtain ⟨part, _, rfl⟩ := hq
  exact processPart_no_colon _

theorem procParts_noSub (x : String) :
    ∀ q ∈ procParts x, hasSub [']', '.', '['] q = false := by
  intro q hq
  simp only [procParts, List.mem_map] at hq
  obtain ⟨part, hpart, rfl⟩ := hq
  exact processPart_noSub
    (hasSub_stripChars_false isBr (splitSep_pieces ']' ['.', '['] x.data part hpart).2)

theorem normalize_eq_of_ne (x : String) (h : x ≠ "") :
    normalize_field_ref x = String.mk (interL ['.'] ((procParts x).map wrapBr)) := by
  rw [normalize_field_ref, if_neg h]

theorem string_mk_cons_ne_empty (c : Char) (l : List Char) : String.mk (c :: l) ≠ "" := by
  intro h
  have := congrArg String.data h
  simp at this

/-- Idempotence of normalization on inputs whose processed segments survive a
second bracket-stripping unchanged (in particular, whenever no extracted
colon-tagged middle component begins with an opening or ends with a closing
bracket). -/
theorem normalize_idem_of_clean_parts (x : String)
    (h : ((procParts x).all fun q => stripChars isBr q == q) = true) :
    normalize_field_ref (normalize_field_ref x) = normalize_field_ref x := by
  by_cases hx : x = ""
  · subst hx; rfl
  · have hq1 : ∀ q ∈ procParts x, stripChars isBr q = q := by
      intro q hq
      have := List.all_eq_true.mp h q hq
      simpa using this
    have hne : procParts x ≠ [] := procParts_ne_nil x
    have hnc : ∀ q ∈ procParts x, ':' ∉ q := procParts_no_colon x
    have hns : ∀ q ∈ procParts x, hasSub [']', '.', '['] q = false := procParts_noSub x
    have hy : normalize_field_ref x =
        String.mk ('[' :: (interL [']', '.', '['] (procParts x) ++ [']'])) := by
      rw [normalize_eq_of_ne x hx, interL_map_wrap (procParts x) hne]
    have hyne : normalize_field_ref x ≠ "" := by
      rw [hy]; exact string_mk_cons_ne_empty _ _
    have hpp : procParts (normalize_field_ref x) = procParts x := by
      have hdata : (normalize_field_ref x).data =
          '[' :: (interL [']', '.', '['] (procParts x) ++ [']']) := by
        rw [hy]
      rw [procParts, hdata, splitSep_edgePieces (procParts x) hne hns]
      exact strip_process_edgePieces (procParts x) hq1 hnc
    rw [normalize_eq_of_ne _ hyne, hpp, ← normalize_eq_of_ne x hx]

/-- Normalizing a doubly-bracketed clean segment strips all the leading and
trailing brackets and re-wraps once: the inner edge brackets are not kept. -/
theorem normalize_double_bracket (core : String)
    (h1 : core.data.contains ':' = false)
    (h2 : stripChars isBr core.data = core.data)
    (h3 : hasSub [']', '.', '['] core.data = false) :
    normalize_field_ref ("[[" ++ core ++ "]]") = "[" ++ core ++ "]" := by
  have hdata : ("[[" ++ core ++ "]]").data =
      '[' :: ('[' :: ((core.data ++ [']']) ++ [']'])) := by
    rw [String.data_append, String.data_append]
    rw [show ("[[" : String).data = ['[', '['] from rfl,
      show ("]]" : String).data = [']', ']'] from rfl]
    simp [List.append_assoc]
  have hne : ("[[" ++ core ++ "]]") ≠ "" := by
    intro h
    have := congrArg String.data h
    rw [hdata] at this
    simp at this
  rw [normalize_eq_of_ne _ hne]
  have hns4 : hasSub [']', '.', '['] ('[' :: ('[' :: ((core.data ++ [']']) ++ [']']))) = false :=
    noSub_cons_lb (noSub_cons_lb (noSub_append_rb (noSub_append_rb h3)))
  have hpp : procParts ("[[" ++ core ++ "]]") = [core.data] := by
    rw [procParts, hdata, splitSep_of_noSub ']' ['.', '['] _ hns4]
    show [processPart (stripChars isBr ('[' :: ('[' :: ((core.data ++ [']']) ++ [']']))))] = _
    rw [stripChars_cons_of isBr '[' _ (by decide), stripChars_cons_of isBr '[' _ (by decide),
      stripChars_append_of isBr ']' _ (by decide), stripChars_append_of isBr ']' _ (by decide),
      h2, processPart_self (not_mem_of_contains_false h1)]
  rw [hpp]
  apply String.ext
  show '[' :: (core.data ++ [']']) = ("[" ++ core ++ "]").data
  rw [String.data_append, String.data_append,
    show ("[" : String).data = ['['] from rfl, show ("]" : String).data = [']'] from rfl]
  simp

/-! ## Lemmas about the association-list dictionary -/

theorem alistGet_updateAList_self {α : Type} (k : String) (g : Option α → α) :
    ∀ m : List (String × α), alistGet k (updateAList k g m) = some (g (alistGet k m)) := by
  intro m
  induction m with
  | nil => simp [alistGet, updateAList]
  | cons p rest ih =>
    by_cases h : p.1 = k
    · simp [alistGet, updateAList, h]
    · simp [alistGet, updateAList, h, ih]

theorem alistGet_updateAList_ne {α : Type} (k q : String) (hne : q ≠ k) (g : Option α → α) :
    ∀ m : List (String × α), alistGet k (updateAList q g m) = alistGet k m := by
  intro m
  induction m with
  | nil => simp [alistGet, updateAList, hne]
  | cons p rest ih =>
    have hkq : ¬ k = q := fun hEq => hne hEq.symm
    by_cases h : p.1 = q
    · have hk : ¬ p.1 = k := by rw [h]; exact hne
      simp [alistGet, updateAList, h, hk, hne]
    · by_cases h2 : p.1 = k
      · simp [alistGet, updateAList, h, h2, hkq]
      · simp [alistGet, updateAList, h, h2, hkq, ih]

/-! ## Monotonicity of usage-map registration -/

theorem rolesFor_registerUsage_same (f w r : String) (m : UsageMap) :
    rolesFor f w (registerUsage f w r m) = rolesFor f w m ++ [r] := by
  unfold rolesFor registerUsage
  rw [alistGet_updateAList_self]
  simp only [Option.getD_some]
  rw [alistGet_updateAList_self]
  simp

theorem rolesFor_registerUsage_ne_field (f w f2 w2 r : String) (hne : f2 ≠ f) (m : UsageMap) :
    rolesFor f w (registerUsage f2 w2 r m) = rolesFor f w m := by
  unfold rolesFor registerUsage
  rw [alistGet_updateAList_ne f f2 hne]

theorem rolesFor_registerUsage_ne_ws (f w f2 w2 r : String) (hne : w2 ≠ w) (m : UsageMap) :
    rolesFor f w (registerUsage f2 w2 r m) = rolesFor f w m := by
  unfold rolesFor registerUsage
  by_cases hf : f2 = f
  · subst hf
    rw [alistGet_updateAList_self]
    simp only [Option.getD_some]
    rw [alistGet_updateAList_ne w w2 hne]
  · rw [alistGet_updateAList_ne f f2 hf]

theorem hasRole_registerUsage (f w r f2 w2 r2 : String) (m : UsageMap)
    (h : hasRole f w r m = true) : hasRole f w r (registerUsage f2 w2 r2 m) = true := by
  by_cases hf : f2 = f
  · by_cases hw : w2 = w
    · subst hf; subst hw
      unfold hasRole at *
      rw [rolesFor_registerUsage_same]
      have hr : r ∈ rolesFor f2 w2 m := by simpa using h
      have : r ∈ rolesFor f2 w2 m ++ [r2] := List.mem_append_left _ hr
      simpa using this
    · unfold hasRole at *
      rw [rolesFor_registerUsage_ne_ws f w f2 w2 r2 hw]
      exact h
  · unfold hasRole at *
    rw [rolesFor_registerUsage_ne_field f w f2 w2 r2 hf]
    exact h

theorem foldl_preserve {α β : Type} (P : α → Prop) (step : α → β → α)
    (h : ∀ a b, P a → P (step a b)) :
    ∀ (l : List β) (a : α), P a → P (l.foldl step a) := by
  intro l
  induction l with
  | nil => intro a ha; exact ha
  | cons b t ih => intro a ha; exact ih (step a b) (h a b ha)

theorem hasRole_shelfTextStep (f w r role ws t : String) (m : UsageMap)
    (h : hasRole f w r m = true) : hasRole f w r (shelfTextStep role ws m t) = true := by
  unfold shelfTextStep
  refine foldl_preserve (fun mm => hasRole f w r mm = true) _ ?_ _ m h
  intro mm tok hmm
  dsimp only
  split
  · exact hmm
  · exact hasRole_registerUsage f w r _ ws role mm hmm

theorem hasRole_shelfOptStep (f w r role ws : String) (t : Option String) (m : UsageMap)
    (h : hasRole f w r m = true) : hasRole f w r (shelfOptStep role ws m t) = true := by
  unfold shelfOptStep
  cases t with
  | none => exact h
  | some s =>
    dsimp only
    split
    · exact hasRole_shelfTextStep f w r role ws s m h
    · exact h

theorem hasRole_filtersStep (f w r ws : String) (fs : List (Option String)) (m : UsageMap)
    (h : hasRole f w r m = true) : hasRole f w r (filtersStep ws m fs) = true := by
  unfold filtersStep
  refine foldl_preserve (fun mm => hasRole f w r mm = true) _ ?_ _ m h
  intro mm c hmm
  cases c with
  | none => exact hmm
  | some col_name =>
    dsimp only
    split
    · exact hasRole_registerUsage f w r _ ws "Filter" mm hmm
    · exact hmm

theorem hasRole_slicesStep (f w r ws : String) (ss : List (Option String)) (m : UsageMap)
    (h : hasRole f w r m = true) : hasRole f w r (slicesStep ws m ss) = true := by
  unfold slicesStep
  refine foldl_preserve (fun mm => hasRole f w r mm = true) _ ?_ _ m h
  intro mm c hmm
  cases c with
  | none => exact hmm
  | some txt =>
    dsimp only
    split
    · exact hasRole_registerUsage f w r _ ws "Filter" mm hmm
    · exact hmm


/-! ## Lemmas about the column-enrichment mutation -/

theorem calcStep_role_formula (col : Column) (f : FieldRecord) (fOpt : Option String)
    (h : col.calcChild = some fOpt) :
    (calcStep col f).role = "Calculation" ∧ (calcStep col f).formula = strOr fOpt "" := by
  unfold calcStep
  rw [h]
  exact ⟨rfl, rfl⟩

theorem calcStep_datatype (col : Column) (f : FieldRecord) :
    (calcStep col f).datatype = f.datatype := by
  unfold calcStep
  rcases h : col.calcChild with _ | fo <;> rfl

theorem calcStep_tech_name (col : Column) (f : FieldRecord) :
    (calcStep col f).tech_name = f.tech_name := by
  unfold calcStep
  rcases h : col.calcChild with _ | fo <;> rfl

theorem dtStep_tech_name (col : Column) (f : FieldRecord) :
    (dtStep col f).tech_name = f.tech_name := by
  unfold dtStep
  rcases h : col.datatypeAttr with _ | d
  · rfl
  · simp [apply_ite FieldRecord.tech_name]

theorem dtStep_of_falsy (col : Column) (f : FieldRecord)
    (h4 : col.datatypeAttr = none ∨ col.datatypeAttr = some "") : dtStep col f = f := by
  unfold dtStep
  rcases h4 with h4 | h4 <;> rw [h4]
  simp

theorem roleStep_datatype (col : Column) (f : FieldRecord) :
    (roleStep col f).datatype = f.datatype := by
  unfold roleStep
  rcases h : col.roleAttr with _ | r
  · rfl
  · simp [apply_ite FieldRecord.datatype]

theorem roleStep_tech_name (col : Column) (f : FieldRecord) :
    (roleStep col f).tech_name = f.tech_name := by
  unfold roleStep
  rcases h : col.roleAttr with _ | r
  · rfl
  · simp [apply_ite FieldRecord.tech_name]

theorem capStep_datatype (col : Column) (f : FieldRecord) :
    (capStep col f).datatype = f.datatype := by
  unfold capStep
  rcases h : col.captionAttr with _ | cap
  · rfl
  · simp [apply_ite FieldRecord.datatype]

theorem capStep_tech_name (col : Column) (f : FieldRecord) :
    (capStep col f).tech_name = f.tech_name := by
  unfold capStep
  rcases h : col.captionAttr with _ | cap
  · rfl
  · simp [apply_ite FieldRecord.tech_name]

theorem enrichMutate_calc (col : Column) (f : FieldRecord) (fOpt : Option String)
    (h : col.calcChild = some fOpt) :
    (enrichMutate col f).role = "Calculation" ∧
      (enrichMutate col f).formula = strOr fOpt "" := by
  unfold enrichMutate
  exact calcStep_role_formula col _ fOpt h

theorem enrichMutate_datatype_of_falsy (col : Column) (f : FieldRecord)
    (h4 : col.datatypeAttr = none ∨ col.datatypeAttr = some "") :
    (enrichMutate col f).datatype = f.datatype := by
  unfold enrichMutate
  rw [calcStep_datatype, dtStep_of_falsy col _ h4, roleStep_datatype, capStep_datatype]

theorem enrichMutate_tech_name (col : Column) (f : FieldRecord) :
    (enrichMutate col f).tech_name = f.tech_name := by
  unfold enrichMutate
  rw [calcStep_tech_name, dtStep_tech_name, roleStep_tech_name, capStep_tech_name]

/-! ## Claim theorems -/

/-- C1 (counterexample): for a worksheet named `"Sheet1"` whose rows-shelf
text is `"(sum(Sales))/[Region]"`, the usage map contains no key `"[Sales]"`
at all: Python `strip('()')` removes only leading/trailing parentheses, so
the first token strips to `"sum(Sales"` and is registered as
`"[sum(Sales]"`, not `"[Sales]"`. -/
theorem C1_counterexample :
    alistGet "[Sales]"
      (buildPass1 [⟨some "Sheet1", some "(sum(Sales))/[Region]", none, [], []⟩]).2 = none ∧
    (buildPass1 [⟨some "Sheet1", some "(sum(Sales))/[Region]", none, [], []⟩]).2 =
      [("[sum(Sales]", [("Sheet1", ["Row"])]), ("[Region]", [("Sheet1", ["Row"])])] := by
  exact ⟨by decide, by decide⟩

/-- C1 (amended): for every worksheet whose rows-shelf text is the string
`"(sum(Sales))/[Region]"` and whose name is `"Sheet1"` — whatever its other
shelves hold — building the usage map registers the canonical ids
`"[sum(Sales]"` (the parentheses wrapping the aggregation token are stripped
from both ends before normalization, leaving the inner `"sum("`) and
`"[Region]"`, each with role `"Row"` under worksheet `"Sheet1"`; empty
tokens after stripping are skipped, and `"[Sales]"` is not registered. -/
theorem C1_rows_shelf_registration (colsText : Option String)
    (filters slices : List (Option String)) :
    hasRole "[sum(Sales]" "Sheet1" "Row"
      (buildPass1
        [⟨some "Sheet1", some "(sum(Sales))/[Region]", colsText, filters, slices⟩]).2 = true ∧
    hasRole "[Region]" "Sheet1" "Row"
      (buildPass1
        [⟨some "Sheet1", some "(sum(Sales))/[Region]", colsText, filters, slices⟩]).2 = true := by
  have hbase1 : hasRole "[sum(Sales]" "Sheet1" "Row"
      (shelfOptStep "Row" "Sheet1" [] (some "(sum(Sales))/[Region]")) = true := by decide
  have hbase2 : hasRole "[Region]" "Sheet1" "Row"
      (shelfOptStep "Row" "Sheet1" [] (some "(sum(Sales))/[Region]")) = true := by decide
  constructor
  · show hasRole "[sum(Sales]" "Sheet1" "Row"
      (slicesStep "Sheet1"
        (filtersStep "Sheet1"
          (shelfOptStep "Column" "Sheet1"
            (shelfOptStep "Row" "Sheet1" [] (some "(sum(Sales))/[Region]")) colsText)
          filters)
        slices) = true
    exact hasRole_slicesStep _ _ _ _ _ _
      (hasRole_filtersStep _ _ _ _ _ _
        (hasRole_shelfOptStep _ _ _ _ _ _ _ hbase1))
  · show hasRole "[Region]" "Sheet1" "Row"
      (slicesStep "Sheet1"
        (filtersStep "Sheet1"
          (shelfOptStep "Column" "Sheet1"
            (shelfOptStep "Row" "Sheet1" [] (some "(sum(Sales))/[Region]")) colsText)
          filters)
        slices) = true
    exact hasRole_slicesStep _ _ _ _ _ _
      (hasRole_filtersStep _ _ _ _ _ _
        (hasRole_shelfOptStep _ _ _ _ _ _ _ hbase2))

/-- C1 (witness): the amended registration at the concrete worksheet with no
columns shelf, no filters and no slices. -/
theorem C1_rows_shelf_registration_witness :
    hasRole "[sum(Sales]" "Sheet1" "Row"
      (buildPass1 [⟨some "Sheet1", some "(sum(Sales))/[Region]", none, [], []⟩]).2 = true ∧
    hasRole "[Region]" "Sheet1" "Row"
      (buildPass1 [⟨some "Sheet1", some "(sum(Sales))/[Region]", none, [], []⟩]).2 = true :=
  C1_rows_shelf_registration none [] []

/-- C2: the reference normalizer maps `"[none:Sales:nk]"` to `"[Sales]"`,
`"[sum:Profit:qk]"` to `"[Profit]"`, and the multi-segment reference
`"[Datasource].[none:Field:nk]"` to `"[Datasource].[Field]"`: each segment
split at the exact delimiter `"].["` whose debracketed content splits on
`":"` into two or more parts is replaced by the part at index 1, then every
segment is re-wrapped in brackets and rejoined with `"."`. -/
theorem C2_normalize_strips_tags :
    normalize_field_ref "[none:Sales:nk]" = "[Sales]" ∧
    normalize_field_ref "[sum:Profit:qk]" = "[Profit]" ∧
    normalize_field_ref "[Datasource].[none:Field:nk]" = "[Datasource].[Field]" := by
  exact ⟨by decide, by decide, by decide⟩

/-- C3 (counterexample): normalization is not idempotent on every reference
string: for `"a:[b:c"` the extracted middle component `"[b"` starts with a
bracket, so the first pass yields `"[[b]"` and the second pass strips the
doubled bracket, yielding `"[b]"`. -/
theorem C3_counterexample :
    normalize_field_ref "a:[b:c" = "[[b]" ∧
    normalize_field_ref "[[b]" = "[b]" ∧
    normalize_field_ref (normalize_field_ref "a:[b:c") ≠ normalize_field_ref "a:[b:c" := by
  exact ⟨by decide, by decide, by decide⟩

/-- C3 (amended): normalization is idempotent on every reference string whose
processed segments are unchanged by a second bracket-stripping — that is,
whenever no segment's extracted field-name component begins with `'['` or
ends with `']'` (in particular, for every already-canonical id built from
bracket-free segment names): `normalize(normalize(x)) = normalize(x)`. -/
theorem C3_normalize_idempotent (x : String)
    (h : ((procParts x).all fun q => stripChars isBr q == q) = true) :
    normalize_field_ref (normalize_field_ref x) = normalize_field_ref x :=
  normalize_idem_of_clean_parts x h

/-- C3 (witness): idempotence at the concrete reference `"[none:Sales:nk]"`. -/
theorem C3_normalize_idempotent_witness :
    ((procParts "[none:Sales:nk]").all fun q => stripChars isBr q == q) = true ∧
    normalize_field_ref (normalize_field_ref "[none:Sales:nk]") =
      normalize_field_ref "[none:Sales:nk]" :=
  ⟨by decide, C3_normalize_idempotent "[none:Sales:nk]" (by decide)⟩

/-- C4 (counterexample): normalization does not strip exactly one bracket
pair per segment: for the segment `"[[x]]"` the inner brackets are NOT
preserved — Python `strip('[]')` removes all leading and trailing bracket
characters, so the canonical id is `"[x]"`, not `"[[x]]"`. -/
theorem C4_counterexample :
    normalize_field_ref "[[x]]" = "[x]" ∧ ("[x]" : String) ≠ "[[x]]" := by
  exact ⟨by decide, by decide⟩

/-- C4 (amended): during normalization each `"].["`-delimited segment has ALL
leading and trailing bracket characters stripped (not just the outermost
pair): for every segment content with bracket-free edges, no colon and no
internal `"].["`, wrapping it in a double bracket pair still normalizes to
the singly-bracketed canonical id. -/
theorem C4_double_brackets_collapsed (core : String)
    (h1 : core.data.contains ':' = false)
    (h2 : stripChars isBr core.data = core.data)
    (h3 : hasSub [']', '.', '['] core.data = false) :
    normalize_field_ref ("[[" ++ core ++ "]]") = "[" ++ core ++ "]" :=
  normalize_double_bracket core h1 h2 h3

/-- C4 (witness): the double-bracket collapse at the concrete segment `"x"`. -/
theorem C4_double_brackets_collapsed_witness :
    ("x" : String).data.contains ':' = false ∧
    stripChars isBr ("x" : String).data = ("x" : String).data ∧
    hasSub [']', '.', '['] ("x" : String).data = false ∧
    normalize_field_ref ("[[" ++ "x" ++ "]]") = "[" ++ "x" ++ "]" :=
  ⟨by decide, by decide, by decide,
    C4_double_brackets_collapsed "x" (by decide) (by decide) (by decide)⟩

/-- C5 (counterexample): the usage map itself does NOT deduplicate: the role
lists grow by `append`, so registering `"Row"` twice for `("[Sales]",
"Sheet1")` — rows text `"[Sales]/[Sales]"` — leaves the recorded role list
`["Row", "Row"]` of length 2, not a collection of size 1. -/
theorem C5_counterexample :
    rolesFor "[Sales]" "Sheet1"
      (buildPass1 [⟨some "Sheet1", some "[Sales]/[Sales]", none, [], []⟩]).2 = ["Row", "Row"] ∧
    ¬ (rolesFor "[Sales]" "Sheet1"
        (buildPass1 [⟨some "Sheet1", some "[Sales]/[Sales]", none, [], []⟩]).2).length = 1 := by
  exact ⟨by decide, by decide⟩

/-- C5 (amended): deduplication happens at usage resolution, not in the usage
map: the resolver unions the recorded role lists with set semantics, so for
the duplicate registration above the per-worksheet role collection has size
1 and the rendered usage shows the role once; in general the union of any
role list into a duplicate-free collection stays duplicate-free, so a role
occurs at most once per `(field, worksheet)` pair in the resolved usage. -/
theorem C5_roles_dedup_at_resolution :
    usageInfoFor (buildPass1 [⟨some "Sheet1", some "[Sales]/[Sales]", none, [], []⟩]).2
      ["[Sales]"] = [("Sheet1", ["Row"])] ∧
    (finalizeField (buildPass1 [⟨some "Sheet1", some "[Sales]/[Sales]", none, [], []⟩]).2
      "" "[Sales]" ⟨"[Sales]", "Sales", "", "", "", ""⟩).usage = "Sheet1 (Row)" ∧
    ∀ (s roles : List String), s.Nodup → (dedupUnion s roles).Nodup := by
  refine ⟨by decide, by decide, ?_⟩
  intro s roles
  induction roles generalizing s with
  | nil => intro hs; exact hs
  | cons r rs ih =>
    intro hs
    show (dedupUnion (if s.contains r then s else s ++ [r]) rs).Nodup
    apply ih
    by_cases hc : s.contains r = true
    · rw [if_pos hc]; exact hs
    · have hcf : s.contains r = false := by
        cases hb : s.contains r with
        | false => rfl
        | true => exact absurd hb hc
      rw [if_neg hc]
      have hr : r ∉ s := by
        intro hm
        have : s.contains r = true := by simpa using hm
        rw [this] at hcf
        cases hcf
      rw [List.nodup_append]
      refine ⟨hs, List.nodup_singleton r, ?_⟩
      intro x hx
      simp only [List.mem_singleton]
      intro hEq
      rw [hEq] at hx
      exact hr hx

/-- C5 (witness): the duplicate-free union at a concrete input. -/
theorem C5_roles_dedup_at_resolution_witness :
    ([] : List String).Nodup ∧ (dedupUnion [] ["Row", "Row"]).Nodup :=
  ⟨List.nodup_nil, C5_roles_dedup_at_resolution.2.2 [] ["Row", "Row"] List.nodup_nil⟩

/-- C6 (counterexample): the calculation child does not guarantee that the
metadata datatype is retained: if the column also carries a truthy
`datatype` attribute, that attribute (capitalized) overrides the metadata
datatype `"string"`, yielding `"Integer"`. -/
theorem C6_counterexample :
    (alistGet "[Profit]"
      (enrichStep (metadataStep [] ⟨some "[Profit]", none, some "string"⟩)
        ⟨some "[Profit]", none, none, some "integer", some (some "1")⟩)).map
      (fun f => f.datatype) = some "Integer" ∧
    some ("Integer" : String) ≠ some ("string" : String) := by
  exact ⟨by decide, by decide⟩

/-- C6 (amended): for every field present in both the metadata-record pass
(with its declared datatype) and a column definition containing a
calculation child, the resulting record has role `"Calculation"` (overriding
any role attribute the column supplied) and formula equal to the
calculation's formula attribute (empty string if absent); the datatype from
the metadata pass is retained provided the column itself supplies no truthy
`datatype` attribute — the calculation child itself never modifies the
datatype. -/
theorem C6_calc_merge (local_name : String) (remoteName localType : Option String)
    (col : Column) (h1 : local_name ≠ "") (h2 : col.nameAttr = some local_name)
    (fOpt : Option String) (h3 : col.calcChild = some fOpt)
    (h4 : col.datatypeAttr = none ∨ col.datatypeAttr = some "") :
    ∃ f : FieldRecord,
      alistGet local_name
          (enrichStep (metadataStep [] ⟨some local_name, remoteName, localType⟩) col) =
        some f ∧
      f.tech_name = local_name ∧ f.role = "Calculation" ∧
      f.formula = strOr fOpt "" ∧ f.datatype = strOr localType "" := by
  have hb : (local_name == "") = false := by
    cases hbe : local_name == "" with
    | false => rfl
    | true => exact absurd (by simpa using hbe) h1
  have hmeta : metadataStep [] ⟨some local_name, remoteName, localType⟩ =
      [(local_name,
        ⟨local_name, strOr remoteName (stripBrS local_name), "",
          strOr localType "", "", ""⟩)] := by
    simp [metadataStep, hb, setAList, updateAList]
  have hself : (local_name == local_name) = true := by simp
  have henrich : enrichStep (metadataStep [] ⟨some local_name, remoteName, localType⟩) col =
      [(local_name,
        enrichMutate col
          ⟨local_name, strOr remoteName (stripBrS local_name), "",
            strOr localType "", "", ""⟩)] := by
    rw [hmeta]
    simp [enrichStep, h2, hb, alistGet, hself, modifyAList]
  refine ⟨enrichMutate col
    ⟨local_name, strOr remoteName (stripBrS local_name), "",
      strOr localType "", "", ""⟩, ?_, ?_, ?_, ?_, ?_⟩
  · rw [henrich]
    simp [alistGet]
  · rw [enrichMutate_tech_name]
  · exact (enrichMutate_calc col _ fOpt h3).1
  · exact (enrichMutate_calc col _ fOpt h3).2
  · rw [enrichMutate_datatype_of_falsy col _ h4]

/-- C6 (witness): the merge at a concrete metadata record with datatype
`"string"` and a concrete calculated column without datatype attribute. -/
theorem C6_calc_merge_witness :
    ("[Profit]" : String) ≠ "" ∧
    (∃ f : FieldRecord,
      alistGet "[Profit]"
          (enrichStep (metadataStep [] ⟨some "[Profit]", none, some "string"⟩)
            ⟨some "[Profit]", none, some "measure", none, some (some "[A]/[B]")⟩) =
        some f ∧
      f.tech_name = "[Profit]" ∧ f.role = "Calculation" ∧
      f.formula = strOr (some "[A]/[B]") "" ∧ f.datatype = strOr (some "string") "") :=
  ⟨by decide,
    C6_calc_merge "[Profit]" none (some "string")
      ⟨some "[Profit]", none, some "measure", none, some (some "[A]/[B]")⟩
      (by decide) rfl (some "[A]/[B]") rfl (Or.inl rfl)⟩

/-- C7: the finalized usage string renders, for each worksheet with at least
one role, `"<worksheet> (<Role1>/<Role2>...)"` with the roles sorted
alphabetically and joined by `"/"`, worksheet entries joined by `", "`;
when no worksheet has any role the usage string is the literal
`"Not Used"`.  In particular, a document with one worksheet `"Sheet1"`
using the field with technical name exactly `"[Sales]"` in `Row` (rows
shelf) and in `Filter` (a filter node) yields `usage = "Sheet1 (Filter/Row)"`. -/
theorem C7_usage_render :
    (parse_twb (Except.ok
      { worksheets := [⟨some "Sheet1", some "[Sales]", none, [some "[Sales]"], []⟩]
        dashboards := []
        datasources := [{ captionAttr := some "Orders"
                          nameAttr := none
                          columns := []
                          metadataRecords := [⟨some "[Sales]", some "Sales", some "string"⟩]
                          connections := []
                          textNodes := [] }] })).map
      (fun d => d.datasources.map fun i => i.fields.map fun f => (f.tech_name, f.usage)) =
      some [[("[Sales]", "Sheet1 (Filter/Row)")]] ∧
    ∀ (dsTechName tech_name : String) (f : FieldRecord),
      (finalizeField [] dsTechName tech_name f).usage = "Not Used" := by
  refine ⟨by decide, ?_⟩
  intro dsTechName tech_name f
  have hui : ∀ tns : List String, usageInfoFor [] tns = [] := by
    intro tns
    induction tns with
    | nil => rfl
    | cons t ts ih =>
      show usageInfoFor [] ts = []
      exact ih
  show renderUsage (usageInfoFor [] (candidateNames dsTechName tech_name)) = "Not Used"
  rw [hui]
  rfl

/-- C7 (witness): the `"Not Used"` default at a concrete unreferenced field. -/
theorem C7_usage_render_witness :
    (finalizeField [] "" "[X]" ⟨"[X]", "X", "", "", "", ""⟩).usage = "Not Used" :=
  C7_usage_render.2 "" "[X]" ⟨"[X]", "X", "", "", "", ""⟩

/-- C8: every data source whose caption (caption attribute, falling back to
the name attribute) equals `"Parameters"`, or whose truthy technical name
starts with `"Parameters"`, contributes zero entries to the result's
datasources list (worksheets and dashboards are untouched too); the
bracket-stripped display name (caption, falling back to name) of each of
its truthy columns is appended to the parameters list instead — in
particular every truthy column caption lands, bracket-stripped, in the
parameters list. -/
theorem C8_parameters_redirect (ds : Datasource) (m : UsageMap) (data : ParseData)
    (h : pyOr ds.captionAttr ds.nameAttr = some "Parameters" ∨
      (∃ n, ds.nameAttr = some n ∧ n ≠ "" ∧ startsWithS n "Parameters" = true)) :
    (processDatasource m data ds).datasources = data.datasources ∧
    (processDatasource m data ds).worksheets = data.worksheets ∧
    (processDatasource m data ds).dashboards = data.dashboards ∧
    (processDatasource m data ds).parameters =
      data.parameters ++ ds.columns.filterMap paramEntry ∧
    ∀ col ∈ ds.columns, ∀ cap, col.captionAttr = some cap → cap ≠ "" →
      stripBrS cap ∈ (processDatasource m data ds).parameters := by
  have hcond : (pyOr ds.captionAttr ds.nameAttr == some "Parameters" ||
      (truthy ds.nameAttr && startsWithS (ds.nameAttr.getD "") "Parameters")) = true := by
    rcases h with h | ⟨n, hn, hne, hsw⟩
    · rw [h]
      simp
    · rw [hn]
      have : truthy (some n) = true := by
        simp [truthy, bne_iff_ne, hne]
      rw [this]
      simp [hsw]
  have hred : processDatasource m data ds =
      { data with parameters := data.parameters ++ ds.columns.filterMap paramEntry } := by
    unfold processDatasource
    simp only [hcond, if_true]
  refine ⟨by rw [hred], by rw [hred], by rw [hred], by rw [hred], ?_⟩
  intro col hcol cap hcap hcapne
  rw [hred]
  show stripBrS cap ∈ data.parameters ++ ds.columns.filterMap paramEntry
  apply List.mem_append_right
  apply List.mem_filterMap.mpr
  refine ⟨col, hcol, ?_⟩
  unfold paramEntry
  have : pyOr col.captionAttr col.nameAttr = some cap := by
    unfold pyOr
    have ht : truthy col.captionAttr = true := by
      rw [hcap]
      simp [truthy, bne_iff_ne, hcapne]
    rw [ht, if_pos rfl, hcap]
  rw [this]
  simp [bne_iff_ne, hcapne]

/-- C8 (witness): the redirect for a concrete `Parameters` data source. -/
theorem C8_parameters_redirect_witness :
    ((processDatasource [] ⟨[], [], [], []⟩
      { captionAttr := some "Parameters"
        nameAttr := none
        columns := [⟨some "[P1]", some "[Param One]", none, none, none⟩]
        metadataRecords := []
        connections := []
        textNodes := [] }).datasources = [] ∧
    (processDatasource [] ⟨[], [], [], []⟩
      { captionAttr := some "Parameters"
        nameAttr := none
        columns := [⟨some "[P1]", some "[Param One]", none, none, none⟩]
        metadataRecords := []
        connections := []
        textNodes := [] }).parameters = ["Param One"]) := by
  have h := C8_parameters_redirect
    { captionAttr := some "Parameters"
      nameAttr := none
      columns := [⟨some "[P1]", some "[Param One]", none, none, none⟩]
      metadataRecords := []
      connections := []
      textNodes := [] } [] ⟨[], [], [], []⟩ (Or.inl (by decide))
  refine ⟨h.1, ?_⟩
  rw [h.2.2.2.1]
  decide

/-- C9: the top-level parse operation never propagates a document-load
exception: for every failure of the external XML load (the only partial
step of the embedding — every other step of `parse_twb` is a total
function), the `except` clause yields the failure signal `none` and no
partial result is produced. -/
theorem C9_parse_error_returns_none (e : String) :
    parse_twb (Except.error e) = none := rfl

/-- C9 (witness): the failure signal at a concrete load error. -/
theorem C9_parse_error_returns_none_witness :
    parse_twb (Except.error "not well-formed (invalid token)") = none :=
  C9_parse_error_returns_none "not well-formed (invalid token)"

/-- C10: a datasource element with neither a caption attribute nor a name
attribute is silently skipped: the datasource loop leaves the whole
accumulated result (datasources, worksheets, dashboards and parameters)
unchanged. -/
theorem C10_unnamed_datasource_skipped (ds : Datasource) (m : UsageMap) (data : ParseData)
    (h1 : ds.captionAttr = none) (h2 : ds.nameAttr = none) :
    processDatasource m data ds = data := by
  unfold processDatasource
  rw [h1, h2]
  simp [pyOr, truthy]

/-- C10 (witness): skipping at a concrete attribute-less datasource that
nevertheless holds columns and metadata records. -/
theorem C10_unnamed_datasource_skipped_witness :
    processDatasource [] ⟨[], ["w"], [], []⟩
      { captionAttr := none
        nameAttr := none
        columns := [⟨some "[P1]", none, none, none, none⟩]
        metadataRecords := [⟨some "[F]", none, none⟩]
        connections := []
        textNodes := [] } = ⟨[], ["w"], [], []⟩ :=
  C10_unnamed_datasource_skipped
    { captionAttr := none
      nameAttr := none
      columns := [⟨some "[P1]", none, none, none, none⟩]
      metadataRecords := [⟨some "[F]", none, none⟩]
      connections := []
      textNodes := [] } [] ⟨[], ["w"], [], []⟩ rfl rfl
